import Mathlib

/-!
Verification development for the `forge_markdown_stream` rendering engine.

The Rust sources under `src/` are shallowly embedded here.  A Rust `&str`
value is modelled as the list of its Unicode scalar values (`Str` below);
`usize` arithmetic is modelled by `Nat` (Rust's `saturating_sub` is exactly
`Nat` subtraction).  External collaborators that are not part of this
repository's core (the `unicode_width` crate, the `streamdown_parser`
event/bullet types, the theme/style capability, the inline parser and the
syntax highlighter) are modelled from the specification: either as small
tables (character widths, whitespace classes) or as opaque function
parameters, as noted on each definition.
-/

set_option maxHeartbeats 1000000

/-- Strings are modelled as lists of Unicode scalar values (characters). -/
abbrev Str := List Char

/-- The ANSI escape character U+001B. -/
def escChar : Char := '\x1b'

/-- Modelled from the spec: the external `unicode_width` collaborator's
`c.width().unwrap_or(0)` (wide characters count 2, most count 1,
control/zero-width count 0).  The table is abridged to the principal
East-Asian-wide, zero-width and control ranges; no theorem in this file
depends on the exact table beyond ASCII and control characters. -/
def isWideChar (c : Char) : Bool :=
  let n := c.toNat
  (0x1100 ≤ n && n ≤ 0x115F) || (0x2E80 ≤ n && n ≤ 0x303E) ||
  (0x3041 ≤ n && n ≤ 0x33FF) || (0x3400 ≤ n && n ≤ 0x4DBF) ||
  (0x4E00 ≤ n && n ≤ 0x9FFF) || (0xA000 ≤ n && n ≤ 0xA4CF) ||
  (0xAC00 ≤ n && n ≤ 0xD7A3) || (0xF900 ≤ n && n ≤ 0xFAFF) ||
  (0xFE30 ≤ n && n ≤ 0xFE4F) || (0xFF00 ≤ n && n ≤ 0xFF60) ||
  (0xFFE0 ≤ n && n ≤ 0xFFE6) || (0x1F300 ≤ n && n ≤ 0x1F64F) ||
  (0x1F900 ≤ n && n ≤ 0x1F9FF) || (0x20000 ≤ n && n ≤ 0x2FFFD) ||
  (0x30000 ≤ n && n ≤ 0x3FFFD)

/-- Modelled from the spec: zero-width characters (combining marks,
zero-width spaces/joiners, variation selectors) as reported by the
external `unicode_width` collaborator. -/
def isZeroWidthChar (c : Char) : Bool :=
  let n := c.toNat
  (0x0300 ≤ n && n ≤ 0x036F) || (0x200B ≤ n && n ≤ 0x200F) ||
  (0xFE00 ≤ n && n ≤ 0xFE0F) || n == 0x2060

/-- Display width of one character: models `UnicodeWidthChar::width(c).unwrap_or(0)`
from the external `unicode_width` collaborator (control characters have no
width and default to 0). -/
def charWidth (c : Char) : Nat :=
  let n := c.toNat
  if n < 0x20 then 0
  else if n < 0x7F then 1
  else if n < 0xA0 then 0
  else if isZeroWidthChar c then 0
  else if isWideChar c then 2
  else 1

/-- Models Rust's `char::is_whitespace` (the Unicode `White_Space` property). -/
def rustWhitespace (c : Char) : Bool :=
  let n := c.toNat
  (0x9 ≤ n && n ≤ 0xD) || n == 0x20 || n == 0x85 || n == 0xA0 ||
  n == 0x1680 || (0x2000 ≤ n && n ≤ 0x200A) || n == 0x2028 ||
  n == 0x2029 || n == 0x202F || n == 0x205F || n == 0x3000

/-- Number of UTF-8 bytes of one character (models Rust's byte-based `str::len`). -/
def utf8Size (c : Char) : Nat :=
  if c.toNat < 0x80 then 1
  else if c.toNat < 0x800 then 2
  else if c.toNat < 0x10000 then 3
  else 4

/-- UTF-8 byte length of a string (Rust `str::len`). -/
def utf8Len (s : Str) : Nat := (s.map utf8Size).sum

/-- Display width of a whole string, escape-unaware: models
`UnicodeWidthStr::width` as used on the margin in `table.rs`. -/
def str_width (s : Str) : Nat := (s.map charWidth).sum

/-! ## `text.rs`: ANSI-aware metrics and word wrapping -/

/-- The characters that terminate an escape sequence in `visible_length`
(`src/text.rs` line 13). -/
def termChar (c : Char) : Bool :=
  c == 'm' || c == 'K' || c == 'H' || c == 'J' || c == '\\'

/-- State-passing core of `visible_length`: the `Bool` is the `in_escape` flag. -/
def visibleLenAux : Bool → Str → Nat
  | _, [] => 0
  | true, c :: rest =>
      if termChar c then visibleLenAux false rest else visibleLenAux true rest
  | false, c :: rest =>
      if c == escChar then visibleLenAux true rest
      else charWidth c + visibleLenAux false rest

/-- `visible_length` from `src/text.rs` (lines 7-24): visible width of a
string, skipping embedded escape sequences. -/
def visible_length (s : Str) : Nat := visibleLenAux false s

/-- Scanner state of `split_text` (`src/text.rs` lines 42-83). -/
structure SplitSt where
  words : List Str
  current : Str
  escBuf : Str
  inEscape : Bool
deriving Repr, DecidableEq

/-- One character step of `split_text`'s loop. -/
def splitStep (st : SplitSt) (ch : Char) : SplitSt :=
  if st.inEscape then
    let buf := st.escBuf ++ [ch]
    if ch == 'm' then
      { st with current := st.current ++ buf, escBuf := [], inEscape := false }
    else { st with escBuf := buf }
  else if ch == escChar then
    { st with inEscape := true, escBuf := st.escBuf ++ [ch] }
  else if rustWhitespace ch then
    if st.current.isEmpty then st
    else { st with words := st.words ++ [st.current], current := [] }
  else { st with current := st.current ++ [ch] }

/-- End-of-input flush of `split_text` (`src/text.rs` lines 74-81). -/
def splitFinish (st : SplitSt) : List Str :=
  let cur := if st.escBuf.isEmpty then st.current else st.current ++ st.escBuf
  if cur.isEmpty then st.words else st.words ++ [cur]

/-- `split_text` from `src/text.rs` (lines 42-83): split a styled string
into whitespace-delimited words, keeping escape sequences attached. -/
def split_text (text : Str) : List Str :=
  splitFinish (text.foldl splitStep ⟨[], [], [], false⟩)

/-- Loop state of `text_wrap` (`src/text.rs` lines 139-142). -/
structure WrapTextSt where
  lines : List Str
  current : Str
  currentLen : Nat
  isFirst : Bool
deriving Repr, DecidableEq

/-- One word step of `text_wrap`'s loop (`src/text.rs` lines 144-177). -/
def wrapTextStep (width : Nat) (fp np : Str) (st : WrapTextSt) (word : Str) :
    WrapTextSt :=
  let wordLen := visible_length word
  let prefixLen := if st.isFirst then visible_length fp else visible_length np
  let available := width - prefixLen
  let spaceNeeded := if st.current.isEmpty then 0 else 1
  if st.currentLen + wordLen + spaceNeeded ≤ available then
    let cur := if st.current.isEmpty then st.current else st.current ++ [' ']
    let len := if st.current.isEmpty then st.currentLen else st.currentLen + 1
    { st with current := cur ++ word, currentLen := len + wordLen }
  else
    if st.current.isEmpty then
      { st with current := word, currentLen := wordLen }
    else
      { lines := st.lines ++ [(if st.isFirst then fp else np) ++ st.current],
        current := word, currentLen := wordLen, isFirst := false }

/-- Final-line flush of `text_wrap` (`src/text.rs` lines 180-187). -/
def wrapTextFinish (fp np : Str) (st : WrapTextSt) : List Str :=
  if st.current.isEmpty then st.lines
  else st.lines ++ [(if st.isFirst then fp else np) ++ st.current]

/-- The word-packing loop of `text_wrap`, applied to an already-split word
list (`src/text.rs` lines 131-189). -/
def wrapWords (words : List Str) (width : Nat) (fp np : Str) : List Str :=
  if words.isEmpty then []
  else wrapTextFinish fp np (words.foldl (wrapTextStep width fp np) ⟨[], [], 0, true⟩)

/-- `text_wrap` from `src/text.rs` (lines 121-190).  The empty `WrappedText`
result is modelled as the empty line list. -/
def text_wrap (text : Str) (width : Nat) (fp np : Str) : List Str :=
  if width == 0 then [] else wrapWords (split_text text) width fp np

/-- Join a list of strings with a single separator between elements. -/
def joinSep (sep : Str) : List Str → Str
  | [] => []
  | [x] => x
  | x :: xs => x ++ sep ++ joinSep sep xs

/-- Join lines with single spaces (the operation named by claim C8). -/
def joinSpace (lines : List Str) : Str := joinSep [' '] lines

/-! ## `code.rs`: character-boundary code line wrapping -/

/-- Fuel-driven core of `chunksOf`: the fuel starts at the list length,
which suffices because each step with a positive chunk size consumes at
least one character. -/
def chunksOfAux (n : Nat) : Nat → Str → List Str
  | _, [] => []
  | 0, _ => []
  | fuel + 1, l => if n = 0 then [] else l.take n :: chunksOfAux n fuel (l.drop n)

/-- Split a character list into successive chunks of `n` characters
(the `while start < chars.len()` loop of `code_wrap`, lines 113-125). -/
def chunksOf (n : Nat) (l : Str) : List Str := chunksOfAux n l.length l

/-- True when every character of the chunk is whitespace
(Rust `l.trim().is_empty()`). -/
def allWhitespace (l : Str) : Bool := l.all rustWhitespace

/-- Drop trailing all-whitespace chunks (`code_wrap` lines 128-130). -/
def dropTrailingWs (ls : List Str) : List Str :=
  ((ls.reverse.dropWhile allWhitespace)).reverse

/-- `code_wrap` from `src/code.rs` (lines 87-137): detect the leading
whitespace indent (measured in UTF-8 bytes, as Rust's `str::len` does),
and split the remaining content at fixed character-count boundaries when
it does not fit in `width` minus 4 reserved columns minus the indent. -/
def code_wrap (text : Str) (width : Nat) : Nat × List Str :=
  if text.isEmpty then (0, [[]])
  else
    let content := text.dropWhile (fun c => rustWhitespace c)
    let indent := utf8Len text - utf8Len content
    if content.isEmpty then (indent, [text])
    else
      let effectiveWidth := width - 4 - indent
      if effectiveWidth == 0 || utf8Len content ≤ effectiveWidth then
        (indent, [text])
      else
        let raw := chunksOf effectiveWidth content
        let withIndent :=
          match raw with
          | [] => []
          | first :: rest => (List.replicate indent ' ' ++ first) :: rest
        let trimmed := dropTrailingWs withIndent
        if trimmed.isEmpty then (indent, [text]) else (indent, trimmed)

/-! ## `table.rs`: table layout and ANSI-safe character wrap -/

/-- The full ANSI reset sequence `"\x1b[0m"`. -/
def ansiReset : Str := [escChar, '[', '0', 'm']

/-- Column count of a buffered table: the maximum row length
(`render_table` line 10). -/
def table_col_count (rows : List (List Str)) : Nat :=
  (rows.map List.length).foldl max 0

/-- Natural column widths (`render_table` lines 13-18): per column, the
maximum visible width of the decorated cells.  `decorate` stands for the
external `streamdown_parser::format_line` collaborator. -/
def table_natural_widths (decorate : Str → Str) (rows : List (List Str)) :
    List Nat :=
  (List.range (table_col_count rows)).map (fun i =>
    (rows.filterMap (fun r => r.get? i)).foldl
      (fun acc cell => max acc (visible_length (decorate cell))) 0)

/-- Border/margin overhead (`render_table` line 20): margin width plus one
border character plus three characters per column. -/
def table_overhead (margin : Str) (rows : List (List Str)) : Nat :=
  str_width margin + 1 + 3 * table_col_count rows

/-- Final column widths of `render_table` (lines 13-25): the natural widths,
proportionally shrunk with a floor of 5 when the table exceeds `maxWidth`
and `maxWidth` exceeds the overhead. -/
def render_table_widths (decorate : Str → Str) (rows : List (List Str))
    (margin : Str) (maxWidth : Nat) : List Nat :=
  let w := table_natural_widths decorate rows
  let overhead := table_overhead margin rows
  let total := w.sum
  if overhead + total > maxWidth ∧ maxWidth > overhead then
    w.map (fun x => max (x * (maxWidth - overhead) / total) 5)
  else w

/-- Loop state of the table cell `wrap` (`src/table.rs` line 55). -/
structure CellWrapSt where
  lines : List Str
  line : Str
  w : Nat
  esc : Str
  style : Option Str
deriving Repr, DecidableEq

/-- One character step of the table cell `wrap` loop
(`src/table.rs` lines 56-65). -/
def cellWrapStep (width : Nat) (st : CellWrapSt) (c : Char) : CellWrapSt :=
  if (!st.esc.isEmpty) || c == escChar then
    let e := st.esc ++ [c]
    if c == 'm' then
      { st with style := if e == ansiReset then none else some e,
                line := st.line ++ e, esc := [] }
    else { st with esc := e }
  else
    let cw := charWidth c
    if st.w + cw > width && decide (st.w > 0) then
      { lines := st.lines ++ [st.line ++ ansiReset],
        line := (st.style.getD []) ++ [c], w := cw,
        esc := st.esc, style := st.style }
    else { st with line := st.line ++ [c], w := st.w + cw }

/-- End-of-input flush of the table cell `wrap` (`src/table.rs` line 66). -/
def cellWrapFinish (st : CellWrapSt) : List Str :=
  if st.line.isEmpty then st.lines else st.lines ++ [st.line]

/-- `wrap` from `src/table.rs` (lines 52-68): character-boundary wrap of a
styled cell, re-opening the active style on continuation chunks. -/
def wrap (text : Str) (width : Nat) : List Str :=
  if width == 0 || visible_length text ≤ width then [text]
  else
    let ls := cellWrapFinish (text.foldl (cellWrapStep width) ⟨[], [], 0, [], none⟩)
    if ls.isEmpty then [[]] else ls

/-- Style-tracking scanner: the `(esc, style)` components of the cell-wrap
loop run on their own.  Its `style` output is the claim's "most recently
opened (and not reset) style" of the scanned string. -/
def styleStep (st : Str × Option Str) (c : Char) : Str × Option Str :=
  if (!st.1.isEmpty) || c == escChar then
    let e := st.1 ++ [c]
    if c == 'm' then ([], if e == ansiReset then none else some e)
    else (e, st.2)
  else st

/-- Run the style scanner from the closed initial state. -/
def styleScan (s : Str) : Str × Option Str := s.foldl styleStep ([], none)

/-- The most recently opened and not reset style of a string, if any. -/
def activeStyle (s : Str) : Option Str := (styleScan s).2

/-- A string is escape-balanced when scanning it never ends inside an
unterminated escape sequence. -/
def escBalanced (s : Str) : Bool := (styleScan s).1.isEmpty

/-- Remove a trailing 4-character reset from a chunk. -/
def stripReset (l : Str) : Str := l.take (l.length - 4)

/-! ## `list.rs`: nested list state machine -/

/-- Modelled from the spec: the external `streamdown_parser::ListBullet`
kinds.  All bullet kinds other than `Ordered` and `PlusExpand` are handled
identically by the catch-all arm of `render_list_item`, so they are
collapsed into one `Unordered` constructor. -/
inductive ListBullet where
  | Ordered (n : Nat)
  | PlusExpand
  | Unordered
deriving Repr, DecidableEq

/-- Modelled from the spec: the style/theme capability (the `Theme` type of
`theme.rs` is not under `src/`).  Each semantic style maps a plain string to
a styled string; only the two styles used by `render_list_item` are needed. -/
structure Theme where
  bullet : Str → Str
  list_number : Str → Str

/-- The identity theme: a styling capability that leaves text unchanged
(the test-only tag-emitting styler of the spec, with empty tags). -/
def idTheme : Theme := ⟨id, id⟩

/-- `ListState` from `src/list.rs` (lines 12-20).  The Rust `Vec` stacks
(top at the end) are modelled with the list head as the stack top. -/
structure ListState where
  stack : List (Nat × Bool)
  numbers : List Nat
  pending_reset : Bool
deriving Repr, DecidableEq

/-- `ListState::new` / `ListState::default`. -/
def ListState.new : ListState := ⟨[], [], false⟩

/-- `ListState::level` (`src/list.rs` lines 27-29). -/
def ListState.level (st : ListState) : Nat := st.stack.length

/-- `ListState::push` (`src/list.rs` lines 31-34). -/
def ListState.push (st : ListState) (indent : Nat) (ordered : Bool) : ListState :=
  { st with stack := (indent, ordered) :: st.stack, numbers := 0 :: st.numbers }

/-- `ListState::pop` (`src/list.rs` lines 36-39). -/
def ListState.pop (st : ListState) : ListState :=
  { st with stack := st.stack.tail, numbers := st.numbers.tail }

/-- `ListState::next_number` (`src/list.rs` lines 41-48): increment and
return the counter of the top frame, or 1 when the stack is empty. -/
def ListState.next_number (st : ListState) : Nat × ListState :=
  match st.numbers with
  | [] => (1, st)
  | n :: rest => (n + 1, { st with numbers := (n + 1) :: rest })

/-- The pop loop of `adjust_for_indent` (`src/list.rs` lines 52-58): pop
frames whose indent exceeds the new indent (popping `stack` and `numbers`
in lockstep, as `ListState::pop` does). -/
def adjustPopAux : List (Nat × Bool) → List Nat → Nat →
    List (Nat × Bool) × List Nat
  | [], ns, _ => ([], ns)
  | (i, o) :: s, ns, ind =>
      if i > ind then adjustPopAux s ns.tail ind else ((i, o) :: s, ns)

/-- `ListState::adjust_for_indent` (`src/list.rs` lines 50-65). -/
def ListState.adjust_for_indent (st : ListState) (indent : Nat)
    (ordered : Bool) : ListState :=
  let p := adjustPopAux st.stack st.numbers indent
  let st1 : ListState := { st with stack := p.1, numbers := p.2 }
  let needPush :=
    match p.1 with
    | [] => true
    | (i, _) :: _ => indent > i
  if needPush then st1.push indent ordered else st1

/-- `ListState::reset` (`src/list.rs` lines 67-71). -/
def ListState.reset (_st : ListState) : ListState := ⟨[], [], false⟩

/-- `ListState::mark_pending_reset` (`src/list.rs` lines 74-76). -/
def ListState.mark_pending_reset (st : ListState) : ListState :=
  { st with pending_reset := true }

/-- `ListState::resume_if_pending` (`src/list.rs` lines 79-81). -/
def ListState.resume_if_pending (st : ListState) : ListState :=
  { st with pending_reset := false }

/-- The 4-glyph bullet palette indexed by `level % 4`
(`src/list.rs` lines 9 and 111). -/
def bulletAt (level : Nat) : Str :=
  match level % 4 with
  | 0 => ['•']
  | 1 => ['◦']
  | 2 => ['▪']
  | _ => ['‣']

/-- The state-updating marker selection of `render_list_item`
(`src/list.rs` lines 94-112): resume a pending list, adjust the stack for
the item's indent, then pick the marker (internal counter for ordered
items, fixed glyph for plus-expand, palette glyph otherwise). -/
def listItemCore (indent : Nat) (bullet : ListBullet) (st : ListState) :
    Str × ListState :=
  let st1 := st.resume_if_pending
  let ordered := match bullet with | .Ordered _ => true | _ => false
  let st2 := st1.adjust_for_indent indent ordered
  let level := st2.level - 1
  match bullet with
  | .Ordered _ =>
      let p := st2.next_number
      ((Nat.repr p.1).data ++ ['.'], p.2)
  | .PlusExpand => (['⊞'], st2)
  | .Unordered => (bulletAt level, st2)

/-- Marker colouring of `render_list_item` (`src/list.rs` lines 120-124). -/
def styledMarker (theme : Theme) (bullet : ListBullet) (marker : Str) : Str :=
  match bullet with
  | .Ordered _ => theme.list_number marker
  | _ => theme.bullet marker

/-- `render_list_item` from `src/list.rs` (lines 85-141).  The Rust
function mutates the list state in place; here the new state is returned.
`inline` stands for `render_inline_content · theme` (whose inline parser is
the external `streamdown_parser::InlineParser` collaborator). -/
def render_list_item (inline : Str → Str) (theme : Theme) (indent : Nat)
    (bullet : ListBullet) (content : Str) (width : Nat) (margin : Str)
    (st : ListState) : List Str × ListState :=
  let p := listItemCore indent bullet st
  let marker := p.1
  let indentSpaces := indent * 2
  let markerWidth := visible_length marker
  let contentIndent := indentSpaces + markerWidth + 1
  let coloredMarker := styledMarker theme bullet marker
  let renderedContent := inline content
  let fpfx := margin ++ List.replicate indentSpaces ' ' ++ coloredMarker ++ [' ']
  let npfx := margin ++ List.replicate contentIndent ' '
  let wrapped := text_wrap renderedContent width fpfx npfx
  (if wrapped.isEmpty then [fpfx] else wrapped, p.2)

/-! ## `renderer.rs`: the event dispatcher's list-state flow -/

/-- Modelled from the spec and `renderer.rs`: the external
`streamdown_parser::ParseEvent` stream, restricted to the variants the list
claims need.  `Heading` stands for any event outside the
`{list-item, list-end, empty-line, newline}` set distinguished by
`should_reset_list`. -/
inductive ParseEvent where
  | ListItem (indent : Nat) (bullet : ListBullet) (content : Str)
  | ListEnd
  | EmptyLine
  | Newline
  | Heading (level : Nat) (content : Str)
deriving Repr, DecidableEq

/-- `Renderer::should_reset_list` (`src/renderer.rs` lines 110-120): every
event other than list-item, list-end, empty-line and newline resets a
pending list. -/
def should_reset_list : ParseEvent → Bool
  | .ListItem _ _ _ => false
  | .ListEnd => false
  | .EmptyLine => false
  | .Newline => false
  | .Heading _ _ => true

/-- The list-state flow of `Renderer::render_event` (`src/renderer.rs`
lines 123-128 and 223-247): reset a pending list when the event demands
it, render list items through `render_list_item`, and arm the pending
reset on list-end.  Output other than rendered list-item lines (headings,
blank lines) is not list-relevant and is not collected; the heading
renderer itself (`heading.rs`) is not under `src/`. -/
def renderEventList (inline : Str → Str) (theme : Theme) (width : Nat)
    (margin : Str) (st : ListState) (e : ParseEvent) :
    ListState × List (List Str) :=
  let st0 := if should_reset_list e then st.reset else st
  match e with
  | .ListItem indent bullet content =>
      let p := render_list_item inline theme indent bullet content width margin st0
      (p.2, [p.1])
  | .ListEnd => (st0.mark_pending_reset, [])
  | _ => (st0, [])

/-- Feed a sequence of events through the dispatcher's list-state flow,
collecting the lines rendered for each list-item event. -/
def renderEvents (inline : Str → Str) (theme : Theme) (width : Nat)
    (margin : Str) : List ParseEvent → ListState → ListState × List (List Str)
  | [], st => (st, [])
  | e :: es, st =>
      let p := renderEventList inline theme width margin st e
      let q := renderEvents inline theme width margin es p.1
      (q.1, p.2 ++ q.2)

/-! ## Claim C4: table shrink floor -/

/-- C4: in `render_table`, whenever the margin/border overhead plus the sum
of the natural column widths exceeds the maximum width and the maximum
width exceeds the overhead, every final column width after proportional
shrinking is at least 5 visible characters. -/
theorem render_table_shrink_floor (decorate : Str → Str)
    (rows : List (List Str)) (margin : Str) (maxWidth : Nat)
    (h1 : table_overhead margin rows +
        (table_natural_widths decorate rows).sum > maxWidth)
    (h2 : maxWidth > table_overhead margin rows) :
    ∀ x ∈ render_table_widths decorate rows margin maxWidth, 5 ≤ x := by
  intro x hx
  unfold render_table_widths at hx
  rw [if_pos ⟨h1, h2⟩] at hx
  obtain ⟨y, _, rfl⟩ := List.mem_map.mp hx
  exact le_max_right _ 5

/-- Concrete witness for C4: a one-column table of natural width 10 at
maximum width 8 (overhead 4) shrinks to the floor of 5. -/
theorem render_table_shrink_floor_witness :
    (table_overhead [] [[List.replicate 10 'a']] +
        (table_natural_widths id [[List.replicate 10 'a']]).sum > 8) ∧
    (8 > table_overhead [] [[List.replicate 10 'a']]) ∧
    ∀ x ∈ render_table_widths id [[List.replicate 10 'a']] [] 8, 5 ≤ x :=
  ⟨by decide, by decide,
    render_table_shrink_floor id [[List.replicate 10 'a']] [] 8
      (by decide) (by decide)⟩

/-! ## Claim C6: the `"    print(1)"` code-wrap scenario -/

/-- Counterexample to C6: at width 8 the reserved content width is
`8 - 4 - 4 = 0`, so `code_wrap` returns the line as a single unsplit chunk,
not two chunks. -/
theorem code_wrap_width8_single_chunk :
    code_wrap "    print(1)".data 8 = (4, ["    print(1)".data]) ∧
    ((code_wrap "    print(1)".data 8).2.length = 2 → False) := by
  constructor
  · decide
  · decide

/-- C6 as amended: at width 8 `code_wrap "    print(1)"` yields one unsplit
chunk retaining the indent (the reserved width is zero); the two-chunk
split with the first chunk retaining the 4-space indent appears at
width 12. -/
theorem code_wrap_print_scenario :
    code_wrap "    print(1)".data 8 = (4, ["    print(1)".data]) ∧
    code_wrap "    print(1)".data 12 = (4, ["    prin".data, "t(1)".data]) := by
  constructor
  · decide
  · decide

/-! ## Claim C2: pending-reset scenarios -/

/-- C2: through the dispatcher (identity theme, identity inline renderer),
`item, list-end, empty-line, item` renders markers `1.` then `2.` (the list
resumes), while `item, list-end, heading, item` renders `1.` then `1.`
(the list is fully reset before the heading). -/
theorem list_pending_reset_scenarios :
    (renderEvents id idTheme 80 []
        [.ListItem 0 (.Ordered 1) ['x'], .ListEnd, .EmptyLine,
         .ListItem 0 (.Ordered 1) ['x']] .new).2 =
      [[['1', '.', ' ', 'x']], [['2', '.', ' ', 'x']]] ∧
    (renderEvents id idTheme 80 []
        [.ListItem 0 (.Ordered 1) ['x'], .ListEnd, .Heading 1 ['h'],
         .ListItem 0 (.Ordered 1) ['x']] .new).2 =
      [[['1', '.', ' ', 'x']], [['1', '.', ' ', 'x']]] := by
  constructor
  · decide
  · decide

/-! ## Claim C10: empty-content list items still emit their marker line -/

/-- C10: for every indent, bullet kind, width, margin and list state, when
the item's content yields no words after inline rendering and tokenization,
`render_list_item` returns exactly one line: the first-line prefix, i.e.
the margin, `2 * indent` spaces, the styled marker and one trailing space. -/
theorem render_list_item_empty_content (inline : Str → Str) (theme : Theme)
    (indent : Nat) (bullet : ListBullet) (content : Str) (width : Nat)
    (margin : Str) (st : ListState)
    (h : split_text (inline content) = []) :
    (render_list_item inline theme indent bullet content width margin st).1 =
      [margin ++ List.replicate (indent * 2) ' ' ++
        styledMarker theme bullet (listItemCore indent bullet st).1 ++ [' ']] := by
  unfold render_list_item text_wrap wrapWords
  simp [h]

/-- Concrete witness for C10: an inline renderer producing no content, the
identity theme, an unordered bullet at indent 0 and margin `"m "`. -/
theorem render_list_item_empty_content_witness :
    split_text ((fun _ => ([] : Str)) ([] : Str)) = [] ∧
    (render_list_item (fun _ => ([] : Str)) idTheme 0 .Unordered [] 5
        ['m', ' '] .new).1 =
      [['m', ' '] ++ List.replicate (0 * 2) ' ' ++
        styledMarker idTheme .Unordered (listItemCore 0 .Unordered .new).1 ++
        [' ']] :=
  ⟨by decide,
    render_list_item_empty_content (fun _ => []) idTheme 0 .Unordered [] 5
      ['m', ' '] .new (by decide)⟩

/-! ## Claim C3: ordered markers count 1, 2, 3, … -/

/-- Wrapping a single nonempty word always yields one line: the first-line
prefix followed by the word (whether or not the word fits, it is placed
unbroken on the single line). -/
theorem wrapWords_single (w : Str) (hw : w ≠ []) (width : Nat) (fp np : Str) :
    wrapWords [w] width fp np = [fp ++ w] := by
  unfold wrapWords wrapTextFinish
  simp only [List.isEmpty_cons, List.foldl_cons, List.foldl_nil]
  unfold wrapTextStep
  simp [hw]

theorem split_text_single_x : split_text ['x'] = [['x']] := by decide

/-- One ordered item rendered from a one-frame state at the same indent:
the counter advances from `k` to `k + 1` and the marker is `"<k+1>."`,
whatever ordinal `o` the event carries. -/
theorem renderEvent_ordered_step (indent k o : Nat) :
    renderEventList id idTheme 80 [] ⟨[(indent, true)], [k], false⟩
        (.ListItem indent (.Ordered o) ['x']) =
      (⟨[(indent, true)], [k + 1], false⟩,
       [[List.replicate (indent * 2) ' ' ++ (Nat.repr (k + 1)).data ++
          ['.', ' ', 'x']]]) := by
  unfold renderEventList should_reset_list render_list_item listItemCore
  unfold ListState.resume_if_pending ListState.adjust_for_indent adjustPopAux
  unfold ListState.next_number
  simp only [lt_irrefl, if_false, gt_iff_lt, id]
  rw [text_wrap, split_text_single_x]
  simp only [Nat.reduceBEq, Bool.false_eq_true, if_false]
  rw [wrapWords_single ['x'] (by simp) 80]
  simp [styledMarker, idTheme]

/-- The first ordered item from the empty list state pushes a frame for its
indent and renders marker `"1."`, whatever ordinal `o` the event carries. -/
theorem renderEvent_ordered_first (indent o : Nat) :
    renderEventList id idTheme 80 [] ListState.new
        (.ListItem indent (.Ordered o) ['x']) =
      (⟨[(indent, true)], [1], false⟩,
       [[List.replicate (indent * 2) ' ' ++ (Nat.repr 1).data ++
          ['.', ' ', 'x']]]) := by
  unfold renderEventList should_reset_list render_list_item listItemCore
  unfold ListState.resume_if_pending ListState.adjust_for_indent adjustPopAux
  unfold ListState.next_number ListState.new ListState.push
  simp only [id]
  rw [text_wrap, split_text_single_x]
  simp only [Nat.reduceBEq, Bool.false_eq_true, if_false]
  rw [wrapWords_single ['x'] (by simp) 80]
  simp [styledMarker, idTheme]

/-- Folding ordered items at a constant indent from a one-frame state:
the markers continue `k+1, k+2, …`, independent of the events' ordinals. -/
theorem renderEvents_ordered_aux (indent : Nat) (ords : List Nat) :
    ∀ k : Nat,
      renderEvents id idTheme 80 []
          (ords.map fun o => .ListItem indent (.Ordered o) ['x'])
          ⟨[(indent, true)], [k], false⟩ =
        (⟨[(indent, true)], [k + ords.length], false⟩,
         (List.range ords.length).map fun j =>
           [List.replicate (indent * 2) ' ' ++ (Nat.repr (k + j + 1)).data ++
             ['.', ' ', 'x']]) := by
  induction ords with
  | nil => intro k; simp [renderEvents]
  | cons o rest ih =>
      intro k
      rw [List.map_cons, renderEvents, renderEvent_ordered_step, ih (k + 1)]
      simp only [List.length_cons, List.range_succ_eq_map, List.map_cons,
        List.map_map, Prod.mk.injEq, List.singleton_append, List.cons.injEq,
        Nat.add_zero, Nat.succ_eq_add_one, Function.comp_apply]
      refine ⟨?_, ?_, ?_⟩
      · have h : k + 1 + rest.length = k + (rest.length + 1) := by omega
        rw [h]
      · trivial
      · apply List.map_congr_left
        intro j _
        simp only [Function.comp_apply, Nat.succ_eq_add_one]
        have h : k + 1 + j + 1 = k + (j + 1) + 1 := by omega
        rw [h]

/-- C3: for every sequence of ordered list-item events at one constant
indent with no intervening non-list events, the dispatcher renders markers
`1., 2., 3., …` in order, regardless of the ordinal values carried by the
input events (the event's own ordinal never influences the marker). -/
theorem list_ordinal_monotonic (indent : Nat) (ords : List Nat) :
    (renderEvents id idTheme 80 []
        (ords.map fun o => .ListItem indent (.Ordered o) ['x'])
        ListState.new).2 =
      (List.range ords.length).map (fun k =>
        [List.replicate (indent * 2) ' ' ++ (Nat.repr (k + 1)).data ++
          ['.', ' ', 'x']]) := by
  cases ords with
  | nil => simp [renderEvents]
  | cons o rest =>
      rw [List.map_cons, renderEvents, renderEvent_ordered_first,
        renderEvents_ordered_aux indent rest 1]
      simp only [List.length_cons, List.range_succ_eq_map, List.map_cons,
        List.map_map, List.singleton_append, List.cons.injEq, Nat.zero_add,
        Nat.succ_eq_add_one, Function.comp_apply]
      refine ⟨?_, ?_⟩
      · trivial
      · apply List.map_congr_left
        intro j _
        simp only [Function.comp_apply, Nat.succ_eq_add_one]
        have h : 1 + j + 1 = j + 1 + 1 := by omega
        rw [h]

/-! ## Claim C9: strictly increasing frame indents -/

/-- The pop loop returns a suffix of the stack; a strictly-decreasing
(head-is-top) chain is preserved and the remaining top does not exceed the
new indent. -/
theorem adjustPopAux_chain (ind : Nat) :
    ∀ (s : List (Nat × Bool)) (ns : List Nat),
      List.Chain' (fun a b => b < a) (s.map Prod.fst) →
      List.Chain' (fun a b => b < a) ((adjustPopAux s ns ind).1.map Prod.fst) ∧
      (∀ i o rest, (adjustPopAux s ns ind).1 = (i, o) :: rest → i ≤ ind) := by
  intro s
  induction s with
  | nil =>
      intro ns _
      refine ⟨List.chain'_nil, ?_⟩
      intro i o rest h
      simp [adjustPopAux] at h
  | cons p rest ih =>
      intro ns hchain
      obtain ⟨i, o⟩ := p
      by_cases hgt : i > ind
      · have hc : List.Chain' (fun a b => b < a) (rest.map Prod.fst) :=
          (List.chain'_cons'.mp (by simpa using hchain)).2
        have hr := ih ns.tail hc
        simpa [adjustPopAux, hgt] using hr
      · refine ⟨by simpa [adjustPopAux, hgt] using hchain, ?_⟩
        intro i2 o2 rest2 h
        simp only [adjustPopAux, hgt, if_false, List.cons.injEq,
          Prod.mk.injEq] at h
        obtain ⟨⟨h1, _⟩, _⟩ := h
        omega

/-- One `adjust_for_indent` call preserves the strictly-decreasing
(head-is-top) indent chain of the stack. -/
theorem adjust_for_indent_preserves (st : ListState) (ind : Nat) (ord : Bool)
    (h : List.Chain' (fun a b => b < a) (st.stack.map Prod.fst)) :
    List.Chain' (fun a b => b < a)
      ((st.adjust_for_indent ind ord).stack.map Prod.fst) := by
  obtain ⟨hchain, htop⟩ := adjustPopAux_chain ind st.stack st.numbers h
  unfold ListState.adjust_for_indent
  cases hs : (adjustPopAux st.stack st.numbers ind).1 with
  | nil => simp [hs, ListState.push]
  | cons q qrest =>
      obtain ⟨i, o⟩ := q
      have hle : i ≤ ind := htop i o qrest hs
      rw [hs] at hchain
      simp only [hs]
      by_cases hpush : ind > i
      · simp only [hpush, decide_True, if_true, ListState.push, List.map_cons]
        exact List.chain'_cons.mpr ⟨hpush, by simpa using hchain⟩
      · simp only [hpush, decide_False, Bool.false_eq_true, if_false]
        simpa using hchain

/-- C9: starting from the empty list state, after any sequence of
`adjust_for_indent` calls (arbitrary indents and ordered flags) the frame
indents of the stack are strictly increasing from bottom to top (the
embedding keeps the stack top at the list head, so the reversed indent
list is strictly increasing). -/
theorem adjust_for_indent_strict_stack (ops : List (Nat × Bool)) :
    List.Chain' (· < ·)
      (((ops.foldl (fun st p => st.adjust_for_indent p.1 p.2)
          ListState.new).stack.map Prod.fst).reverse) := by
  rw [List.chain'_reverse]
  have main : ∀ (l : List (Nat × Bool)) (st : ListState),
      List.Chain' (fun a b => b < a) (st.stack.map Prod.fst) →
      List.Chain' (fun a b => b < a)
        ((l.foldl (fun st p => st.adjust_for_indent p.1 p.2) st).stack.map
          Prod.fst) := by
    intro l
    induction l with
    | nil => intro st hst; simpa using hst
    | cons p rest ih =>
        intro st hst
        exact ih _ (adjust_for_indent_preserves st p.1 p.2 hst)
  have := main ops ListState.new (by simp [ListState.new])
  simpa [flip] using this

/-! ## Claim C5: `visible_length` never counts escape-sequence characters -/

/-- While inside an escape sequence, `visible_length` skips terminator-free
characters up to and including the closing terminator. -/
theorem visibleLenAux_skip_escape (body : Str)
    (h : ∀ c ∈ body, termChar c = false) (t : Char) (ht : termChar t = true)
    (rest : Str) :
    visibleLenAux true (body ++ t :: rest) = visibleLenAux false rest := by
  induction body with
  | nil => simp [visibleLenAux, ht]
  | cons c body ih =>
      have hc : termChar c = false := h c (by simp)
      simp only [List.cons_append, visibleLenAux, hc, Bool.false_eq_true,
        if_false]
      exact ih (fun d hd => h d (by simp [hd]))

/-- On escape-free text, `visible_length` sums the character widths. -/
theorem visibleLenAux_no_escape (text : Str) (h : escChar ∉ text)
    (rest : Str) :
    visibleLenAux false (text ++ rest) =
      (text.map charWidth).sum + visibleLenAux false rest := by
  induction text with
  | nil => simp
  | cons c text ih =>
      have hc : (c == escChar) = false := by
        simp only [beq_eq_false_iff_ne, ne_eq]
        intro hceq
        exact h (by simp [hceq])
      simp only [List.cons_append, visibleLenAux, hc, Bool.false_eq_true,
        if_false, List.map_cons, List.sum_cons, List.append_eq]
      rw [ih (fun hmem => h (by simp [hmem]))]
      omega

/-- C5: for every string formed from a style-start escape sequence
(`ESC`, a terminator-free body, a final `m`), arbitrary escape-free text
and a full reset, `visible_length` equals the width of the text alone —
the sum of the character widths, with no escape character counted. -/
theorem visible_length_ignores_escapes (body text : Str)
    (hbody : ∀ c ∈ body, termChar c = false) (htext : escChar ∉ text) :
    visible_length (([escChar] ++ body ++ ['m']) ++ text ++ ansiReset) =
        visible_length text ∧
      visible_length text = (text.map charWidth).sum := by
  have hreset : visibleLenAux false ansiReset = 0 := by decide
  have htail : visibleLenAux false (text ++ ansiReset) =
      (text.map charWidth).sum := by
    rw [visibleLenAux_no_escape text htext ansiReset, hreset]
    omega
  have hvl : visible_length text = (text.map charWidth).sum := by
    have := visibleLenAux_no_escape text htext []
    simpa [visible_length, visibleLenAux] using this
  refine ⟨?_, hvl⟩
  unfold visible_length
  have hshape :
      (([escChar] ++ body ++ ['m']) ++ text ++ ansiReset : Str) =
        escChar :: (body ++ 'm' :: (text ++ ansiReset)) := by
    simp
  rw [hshape]
  simp only [visibleLenAux, beq_self_eq_true, if_true]
  rw [visibleLenAux_skip_escape body hbody 'm' (by decide) (text ++ ansiReset),
    htail]
  exact hvl.symm

/-- Concrete witness for C5: the bold style-start `"\x1b[1m"`, text
`"hi"`, and the full reset. -/
theorem visible_length_ignores_escapes_witness :
    (∀ c ∈ (['[', '1'] : Str), termChar c = false) ∧
    escChar ∉ (['h', 'i'] : Str) ∧
    (visible_length (([escChar] ++ ['[', '1'] ++ ['m']) ++ ['h', 'i'] ++
          ansiReset) = visible_length ['h', 'i'] ∧
      visible_length ['h', 'i'] = ((['h', 'i'] : Str).map charWidth).sum) :=
  ⟨by decide, by decide,
    visible_length_ignores_escapes ['[', '1'] ['h', 'i'] (by decide)
      (by decide)⟩

/-! ## Claim C1: the word-wrap width bound -/

/-- Scanning in escape mode never counts more than scanning the same
characters outside an escape. -/
theorem visibleLenAux_true_le (l : Str) :
    visibleLenAux true l ≤ visibleLenAux false l := by
  induction l with
  | nil => exact Nat.le_refl 0
  | cons c rest ih =>
      by_cases ht : termChar c = true
      · have hne : (c == escChar) = false := by
          by_contra hbe
          rw [Bool.not_eq_false, beq_iff_eq] at hbe
          subst hbe
          exact absurd ht (by decide)
        simp only [visibleLenAux, ht, if_true, hne, Bool.false_eq_true,
          if_false]
        omega
      · simp only [visibleLenAux, ht, Bool.false_eq_true, if_false]
        by_cases he : (c == escChar) = true
        · simp [he]
        · simp only [he, Bool.false_eq_true, if_false]
          omega

/-- Subadditivity of the escape-aware width over concatenation, from any
starting escape state. -/
theorem visibleLenAux_append_le (b : Str) :
    ∀ (a : Str) (st : Bool),
      visibleLenAux st (a ++ b) ≤ visibleLenAux st a + visibleLenAux false b := by
  intro a
  induction a with
  | nil =>
      intro st
      cases st
      · simp [visibleLenAux]
      · simpa [visibleLenAux] using visibleLenAux_true_le b
  | cons c rest ih =>
      intro st
      cases st
      · by_cases he : (c == escChar) = true
        · simpa [visibleLenAux, he] using ih true
        · simp only [List.cons_append, visibleLenAux, he, Bool.false_eq_true,
            if_false, List.append_eq]
          have hrec := ih false
          simp only [List.append_eq] at hrec
          omega
      · by_cases ht : termChar c = true
        · simpa [visibleLenAux, ht] using ih false
        · simpa [visibleLenAux, ht] using ih true

/-- Subadditivity of `visible_length` over concatenation. -/
theorem visible_length_append_le (a b : Str) :
    visible_length (a ++ b) ≤ visible_length a + visible_length b :=
  visibleLenAux_append_le b a false

/-- Every word produced by `split_text` is nonempty. -/
theorem split_text_words_ne_nil (t : Str) : ∀ w ∈ split_text t, w ≠ [] := by
  have main : ∀ (l : Str) (st : SplitSt), (∀ w ∈ st.words, w ≠ []) →
      ∀ w ∈ (l.foldl splitStep st).words, w ≠ [] := by
    intro l
    induction l with
    | nil => intro st h; simpa using h
    | cons c rest ih =>
        intro st h
        rw [List.foldl_cons]
        apply ih
        unfold splitStep
        split_ifs with h1 h2 h3 h4 h5
        · simpa using h
        · simpa using h
        · simpa using h
        · simpa using h
        · intro w hw
          simp only [List.mem_append, List.mem_singleton] at hw
          rcases hw with hw | hw
          · exact h w hw
          · subst hw
            intro hnil
            rw [hnil] at h5
            simp at h5
        · simpa using h
  intro w hw
  unfold split_text splitFinish at hw
  set st := t.foldl splitStep ⟨[], [], [], false⟩ with hst
  have hwords : ∀ v ∈ st.words, v ≠ [] := main t _ (by simp)
  by_cases hcur :
      (if st.escBuf.isEmpty then st.current else st.current ++ st.escBuf) = []
  · rw [if_pos (by simpa using hcur)] at hw
    exact hwords w hw
  · rw [if_neg (by simpa using hcur)] at hw
    simp only [List.mem_append, List.mem_singleton] at hw
    rcases hw with hw | hw
    · exact hwords w hw
    · subst hw; exact hcur

/-- Visible width of the active wrap prefix (first-line or continuation). -/
def wrapPfxLen (fp np : Str) (b : Bool) : Nat :=
  if b then visible_length fp else visible_length np

/-- A line satisfies the wrap bound: its visible width is at most `width`,
or it is one of the two prefixes followed by a single unbroken word of `W`
whose width alone exceeds the (integer) available width. -/
def GoodLine (width : Nat) (fp np : Str) (W : List Str) (l : Str) : Prop :=
  visible_length l ≤ width ∨
  ∃ w ∈ W,
    (l = fp ++ w ∧ (width : ℤ) - visible_length fp < visible_length w) ∨
    (l = np ++ w ∧ (width : ℤ) - visible_length np < visible_length w)

/-- Invariant of the `text_wrap` word loop: all finished lines are good,
the tracked length dominates the visible width of the line in progress,
and the line in progress is empty, a single word, or within budget. -/
def WrapInv (width : Nat) (fp np : Str) (W : List Str) (st : WrapTextSt) :
    Prop :=
  (∀ l ∈ st.lines, GoodLine width fp np W l) ∧
  visible_length st.current ≤ st.currentLen ∧
  (st.current = [] → st.currentLen = 0) ∧
  (st.current = [] ∨
    (∃ w ∈ W, st.current = w ∧ st.currentLen = visible_length w) ∨
    (st.currentLen ≤ width - wrapPfxLen fp np st.isFirst ∧
      wrapPfxLen fp np st.isFirst ≤ width))

/-- Flushing the line in progress (with its prefix) yields a good line. -/
theorem wrapInv_push (width : Nat) (fp np : Str) (W : List Str)
    (st : WrapTextSt) (h : WrapInv width fp np W st) (hne : st.current ≠ []) :
    GoodLine width fp np W ((if st.isFirst then fp else np) ++ st.current) := by
  obtain ⟨-, hvl, -, hcur⟩ := h
  rcases hcur with hcur | ⟨w, hwW, hcw, hclen⟩ | ⟨hbound, hple⟩
  · exact absurd hcur hne
  · by_cases hwide :
        visible_length ((if st.isFirst then fp else np) ++ st.current) ≤ width
    · exact Or.inl hwide
    · have hsub := visible_length_append_le (if st.isFirst then fp else np)
        st.current
      have hcv : visible_length st.current = visible_length w := by rw [hcw]
      refine Or.inr ⟨w, hwW, ?_⟩
      cases hb : st.isFirst
      · rw [hb] at hwide hsub
        simp only [Bool.false_eq_true, if_false] at hwide hsub ⊢
        refine Or.inr ⟨by rw [hcw], ?_⟩
        omega
      · rw [hb] at hwide hsub
        simp only [eq_self_iff_true, if_true] at hwide hsub ⊢
        refine Or.inl ⟨by rw [hcw], ?_⟩
        omega
  · left
    have hsub := visible_length_append_le (if st.isFirst then fp else np)
      st.current
    have hpfx : visible_length (if st.isFirst then fp else np) =
        wrapPfxLen fp np st.isFirst := by
      cases st.isFirst <;> simp [wrapPfxLen]
    rw [hpfx] at hsub
    omega

/-- The wrap loop step preserves the invariant. -/
theorem wrapInv_step (width : Nat) (fp np : Str) (W : List Str)
    (st : WrapTextSt) (w : Str) (hw : w ∈ W) (hwne : w ≠ [])
    (h : WrapInv width fp np W st) :
    WrapInv width fp np W (wrapTextStep width fp np st w) := by
  obtain ⟨hlines, hvl, hz, hcur⟩ := h
  unfold wrapTextStep
  by_cases hemp : st.current.isEmpty = true
  · have hce : st.current = [] := by simpa using hemp
    have hcl : st.currentLen = 0 := hz hce
    by_cases hfit : st.currentLen + visible_length w +
        (if st.current.isEmpty then 0 else 1) ≤
        width - (if st.isFirst then visible_length fp else visible_length np)
    · rw [if_pos hfit]
      refine ⟨hlines, ?_, ?_, Or.inr (Or.inl ⟨w, hw, ?_, ?_⟩)⟩
      · simp [hemp, hce]
      · simp [hemp, hce, hwne]
      · simp [hemp, hce]
      · simp [hemp, hcl]
    · rw [if_neg hfit, if_pos hemp]
      exact ⟨hlines, le_refl _, fun hc => absurd hc hwne,
        Or.inr (Or.inl ⟨w, hw, rfl, rfl⟩)⟩
  · have hce : st.current ≠ [] := by simpa using hemp
    by_cases hfit : st.currentLen + visible_length w +
        (if st.current.isEmpty then 0 else 1) ≤
        width - (if st.isFirst then visible_length fp else visible_length np)
    · rw [if_pos hfit]
      have hplen : visible_length (if st.isFirst then fp else np) =
          wrapPfxLen fp np st.isFirst := by
        cases st.isFirst <;> simp [wrapPfxLen]
      refine ⟨hlines, ?_, ?_, Or.inr (Or.inr ⟨?_, ?_⟩)⟩
      · have h1 := visible_length_append_le (st.current ++ [' ']) w
        have h2 := visible_length_append_le st.current [' ']
        have h3 : visible_length [' '] = 1 := by decide
        simp only [hemp, Bool.false_eq_true, if_false]
        omega
      · intro hc
        simp only [hemp, Bool.false_eq_true, if_false] at hc
        exact absurd (List.append_eq_nil.mp hc).2 hwne
      · simp only [hemp, Bool.false_eq_true, if_false] at hfit ⊢
        have hb : wrapPfxLen fp np st.isFirst =
            (if st.isFirst then visible_length fp else visible_length np) := by
          cases st.isFirst <;> simp [wrapPfxLen]
        rw [hb]
        omega
      · simp only [hemp, Bool.false_eq_true, if_false] at hfit
        have hb : wrapPfxLen fp np st.isFirst =
            (if st.isFirst then visible_length fp else visible_length np) := by
          cases st.isFirst <;> simp [wrapPfxLen]
        rw [hb]
        omega
    · rw [if_neg hfit, if_neg hemp]
      refine ⟨?_, le_refl _, fun hc => absurd hc hwne,
        Or.inr (Or.inl ⟨w, hw, rfl, rfl⟩)⟩
      intro l hl
      simp only [List.mem_append, List.mem_singleton] at hl
      rcases hl with hl | hl
      · exact hlines l hl
      · subst hl
        exact wrapInv_push width fp np W st ⟨hlines, hvl, hz, hcur⟩ hce

/-- The wrap loop maintains the invariant over a whole word list. -/
theorem wrapInv_fold (width : Nat) (fp np : Str) (W : List Str) :
    ∀ (ws : List Str), (∀ w ∈ ws, w ∈ W ∧ w ≠ []) →
      ∀ st, WrapInv width fp np W st →
        WrapInv width fp np W (ws.foldl (wrapTextStep width fp np) st) := by
  intro ws
  induction ws with
  | nil => intro _ st h; simpa using h
  | cons w rest ih =>
      intro hws st h
      rw [List.foldl_cons]
      refine ih (fun v hv => hws v (by simp [hv])) _ ?_
      obtain ⟨hw1, hw2⟩ := hws w (by simp)
      exact wrapInv_step width fp np W st w hw1 hw2 h

/-- C1: every line produced by `text_wrap` has visible width (prefix
included) at most the requested width, except a line consisting of the
prefix plus a single word of the tokenization whose visible width alone
exceeds the available width (width minus prefix width, as an integer);
such an overlong word is placed on its own line unbroken. -/
theorem text_wrap_line_width_bound (text : Str) (width : Nat) (fp np : Str) :
    ∀ l ∈ text_wrap text width fp np,
      visible_length l ≤ width ∨
      ∃ w ∈ split_text text,
        (l = fp ++ w ∧
          (width : ℤ) - visible_length fp < visible_length w) ∨
        (l = np ++ w ∧
          (width : ℤ) - visible_length np < visible_length w) := by
  intro l hl
  unfold text_wrap at hl
  by_cases hw0 : (width == 0) = true
  · rw [if_pos hw0] at hl
    simp at hl
  · rw [if_neg hw0] at hl
    unfold wrapWords at hl
    by_cases hwe : (split_text text).isEmpty = true
    · rw [if_pos hwe] at hl
      simp at hl
    · rw [if_neg hwe] at hl
      have hinv : WrapInv width fp np (split_text text)
          ((split_text text).foldl (wrapTextStep width fp np)
            ⟨[], [], 0, true⟩) := by
        refine wrapInv_fold width fp np (split_text text) (split_text text)
          (fun w hw => ⟨hw, split_text_words_ne_nil text w hw⟩) _ ?_
        refine ⟨by simp, by simp [visible_length, visibleLenAux], by simp,
          Or.inl rfl⟩
      set stf := (split_text text).foldl (wrapTextStep width fp np)
        ⟨[], [], 0, true⟩
      unfold wrapTextFinish at hl
      obtain ⟨hlines, hvl, hz, hcur⟩ := hinv
      by_cases hce : stf.current.isEmpty = true
      · rw [if_pos hce] at hl
        exact hlines l hl
      · rw [if_neg hce] at hl
        simp only [List.mem_append, List.mem_singleton] at hl
        rcases hl with hl | hl
        · exact hlines l hl
        · subst hl
          exact wrapInv_push width fp np (split_text text) stf
            ⟨hlines, hvl, hz, hcur⟩ (by simpa using hce)

/-- Concrete witness for C1: the single line produced for text `"a"` at
width 20 with prefixes `"- "` and `"  "`. -/
theorem text_wrap_line_width_bound_witness :
    "- a".data ∈ text_wrap "a".data 20 "- ".data "  ".data ∧
    (visible_length "- a".data ≤ 20 ∨
      ∃ w ∈ split_text "a".data,
        ("- a".data = "- ".data ++ w ∧
          (20 : ℤ) - visible_length "- ".data < visible_length w) ∨
        ("- a".data = "  ".data ++ w ∧
          (20 : ℤ) - visible_length "  ".data < visible_length w)) :=
  ⟨by decide,
    text_wrap_line_width_bound "a".data 20 "- ".data "  ".data "- a".data
      (by decide)⟩

/-! ## Claim C8: idempotence of the word wrapper -/

/-- Counterexample to C8 as stated: with a nonempty first-line prefix the
re-wrap treats the prefix of the previous output as ordinary words, so the
prefix is duplicated. -/
theorem text_wrap_rewrap_differs :
    text_wrap (joinSpace (text_wrap "a".data 20 "- ".data "  ".data)) 20
        "- ".data "  ".data = ["- - a".data] ∧
    text_wrap "a".data 20 "- ".data "  ".data = ["- a".data] ∧
    (text_wrap (joinSpace (text_wrap "a".data 20 "- ".data "  ".data)) 20
        "- ".data "  ".data =
      text_wrap "a".data 20 "- ".data "  ".data → False) := by
  refine ⟨by decide, by decide, by decide⟩

/-- Appending one more element to a nonempty join appends a separator and
the element. -/
theorem joinSep_append_one (sep : Str) (w : Str) :
    ∀ (g : List Str), g ≠ [] →
      joinSep sep (g ++ [w]) = joinSep sep g ++ sep ++ w := by
  intro g
  induction g with
  | nil => intro h; exact absurd rfl h
  | cons x xs ih =>
      intro _
      cases xs with
      | nil => simp [joinSep]
      | cons y ys =>
          have hr := ih (by simp)
          simp only [List.cons_append, joinSep, List.append_eq] at hr ⊢
          rw [hr]
          simp [List.append_assoc]

/-- A join of nonempty strings over a nonempty list is nonempty. -/
theorem joinSep_ne_nil (sep : Str) :
    ∀ (g : List Str), (∀ w ∈ g, w ≠ []) → g ≠ [] →
      joinSep sep g ≠ [] := by
  intro g
  induction g with
  | nil => intro _ h; exact absurd rfl h
  | cons x xs _ =>
      intro hall _
      cases xs with
      | nil =>
          simpa [joinSep] using hall x (by simp)
      | cons y ys =>
          have hx : x ≠ [] := hall x (by simp)
          simp only [joinSep, ne_eq, List.append_assoc, List.append_eq_nil]
          intro hc
          exact hx hc.1

/-- Joining two nonempty lists joins their joins around one separator. -/
theorem joinSep_append (sep : Str) :
    ∀ (a b : List Str), a ≠ [] → b ≠ [] →
      joinSep sep (a ++ b) = joinSep sep a ++ sep ++ joinSep sep b := by
  intro a
  induction a with
  | nil => intro b h _; exact absurd rfl h
  | cons x xs ih =>
      intro b _ hb
      cases xs with
      | nil =>
          cases b with
          | nil => exact absurd rfl hb
          | cons z zs => simp [joinSep]
      | cons y ys =>
          have hr := ih b (by simp) hb
          simp only [List.cons_append, joinSep, List.append_eq] at hr ⊢
          rw [hr]
          simp [List.append_assoc]

/-- Joining the per-group joins equals joining the flattened groups. -/
theorem joinSep_flatten (sep : Str) :
    ∀ (groups : List (List Str)), (∀ G ∈ groups, G ≠ []) →
      joinSep sep (groups.map (joinSep sep)) = joinSep sep groups.flatten := by
  intro groups
  induction groups with
  | nil => intro _; rfl
  | cons G rest ih =>
      intro hall
      cases rest with
      | nil => simp [joinSep]
      | cons H hs =>
          have hG : G ≠ [] := hall G (by simp)
          have hHf : (H ++ hs.flatten : List Str) ≠ [] := by
            have hH : H ≠ [] := hall H (by simp)
            simp only [ne_eq, List.append_eq_nil]
            intro hc
            exact hH hc.1
          have hr := ih (fun K hK => hall K (by simp [hK]))
          simp only [List.map_cons, joinSep, List.flatten_cons] at hr ⊢
          rw [hr, joinSep_append sep G (H ++ hs.flatten) hG hHf]

/-- The `split_text` step only ever appends to the accumulated word list:
running it with accumulated words `out` equals running it with none and
prepending `out`. -/
theorem splitStep_out (out : List Str) (cur buf : Str) (e : Bool) (c : Char) :
    splitStep ⟨out, cur, buf, e⟩ c =
      ⟨out ++ (splitStep ⟨[], cur, buf, e⟩ c).words,
       (splitStep ⟨[], cur, buf, e⟩ c).current,
       (splitStep ⟨[], cur, buf, e⟩ c).escBuf,
       (splitStep ⟨[], cur, buf, e⟩ c).inEscape⟩ := by
  unfold splitStep
  split_ifs <;> simp

/-- Out-parametricity of the whole `split_text` scan. -/
theorem splitFold_out (l : Str) :
    ∀ (out : List Str) (cur buf : Str) (e : Bool),
      l.foldl splitStep ⟨out, cur, buf, e⟩ =
        ⟨out ++ (l.foldl splitStep ⟨[], cur, buf, e⟩).words,
         (l.foldl splitStep ⟨[], cur, buf, e⟩).current,
         (l.foldl splitStep ⟨[], cur, buf, e⟩).escBuf,
         (l.foldl splitStep ⟨[], cur, buf, e⟩).inEscape⟩ := by
  induction l with
  | nil => intro out cur buf e; simp
  | cons c rest ih =>
      intro out cur buf e
      rw [List.foldl_cons, List.foldl_cons, splitStep_out]
      cases hs : splitStep ⟨[], cur, buf, e⟩ c with
      | mk w0 cur1 buf1 e1 =>
          simp only
          rw [ih (out ++ w0) cur1 buf1 e1, ih w0 cur1 buf1 e1]
          simp [List.append_assoc]

/-- The `splitFinish` flush also only appends to the word list. -/
theorem splitFinish_out (out out2 : List Str) (cur buf : Str) (e : Bool) :
    splitFinish ⟨out ++ out2, cur, buf, e⟩ =
      out ++ splitFinish ⟨out2, cur, buf, e⟩ := by
  unfold splitFinish
  simp only
  split_ifs <;> simp

/-- The scan of a single word from the fresh state. -/
def replaySt (w : Str) : SplitSt := w.foldl splitStep ⟨[], [], [], false⟩

/-- A word that rescans to itself with the scanner ending outside any
escape sequence (every non-final word of a `split_text` result). -/
def ReplayClosed (w : Str) : Prop := replaySt w = ⟨[], w, [], false⟩

/-- A word that rescans without emitting any word and whose in-progress
content plus pending escape buffer is the word itself (the final word of a
`split_text` result, which may end inside an escape sequence). -/
def ReplayCat (w : Str) : Prop :=
  (replaySt w).words = [] ∧
  (replaySt w).current ++ (replaySt w).escBuf = w

theorem ReplayClosed.cat {w : Str} (h : ReplayClosed w) : ReplayCat w := by
  unfold ReplayCat
  rw [h]
  exact ⟨rfl, by simp⟩

/-- Scan invariant of `split_text`: the escape flag mirrors a nonempty
escape buffer, all flushed words replay closed and are nonempty, and the
in-progress word (content plus escape buffer) replays to the current
state. -/
def SInv (st : SplitSt) : Prop :=
  (st.inEscape = true ↔ st.escBuf ≠ []) ∧
  (∀ w ∈ st.words, ReplayClosed w ∧ w ≠ []) ∧
  replaySt (st.current ++ st.escBuf) = ⟨[], st.current, st.escBuf, st.inEscape⟩

/-- Extending a scan by one character steps the scanner once. -/
theorem replaySt_snoc (l : Str) (c : Char) :
    replaySt (l ++ [c]) = splitStep (replaySt l) c := by
  unfold replaySt
  rw [List.foldl_append]
  rfl

/-- The `split_text` scan step preserves the scan invariant. -/
theorem split_inv_step (st : SplitSt) (c : Char) (h : SInv st) :
    SInv (splitStep st c) := by
  obtain ⟨out, cur, buf, e⟩ := st
  obtain ⟨hflag, hwords, hreplay⟩ := h
  simp only at hflag hwords hreplay
  cases e with
  | true =>
      have hbuf : buf ≠ [] := hflag.mp rfl
      by_cases hm : c = 'm'
      · subst hm
        have hstep : splitStep ⟨out, cur, buf, true⟩ 'm' =
            ⟨out, cur ++ (buf ++ ['m']), [], false⟩ := by
          simp [splitStep]
        rw [hstep]
        refine ⟨by simp, hwords, ?_⟩
        have hassoc : (cur ++ (buf ++ ['m'])) ++ ([] : Str) =
            (cur ++ buf) ++ ['m'] := by simp
        rw [hassoc, replaySt_snoc, hreplay]
        simp [splitStep]
      · have hstep : splitStep ⟨out, cur, buf, true⟩ c =
            ⟨out, cur, buf ++ [c], true⟩ := by
          simp [splitStep, hm]
        rw [hstep]
        refine ⟨by simp, hwords, ?_⟩
        have hassoc : cur ++ (buf ++ [c]) = (cur ++ buf) ++ [c] := by simp
        rw [hassoc, replaySt_snoc, hreplay]
        simp [splitStep, hm]
  | false =>
      have hbuf : buf = [] := by
        by_contra hb
        exact absurd (hflag.mpr hb) (by simp)
      subst hbuf
      rw [List.append_nil] at hreplay
      by_cases hesc : c = escChar
      · subst hesc
        have hstep : splitStep ⟨out, cur, [], false⟩ escChar =
            ⟨out, cur, [escChar], true⟩ := by
          simp [splitStep]
        rw [hstep]
        refine ⟨by simp, hwords, ?_⟩
        rw [replaySt_snoc, hreplay]
        simp [splitStep]
      · by_cases hws : rustWhitespace c = true
        · by_cases hcur : cur.isEmpty = true
          · have hstep : splitStep ⟨out, cur, [], false⟩ c =
                ⟨out, cur, [], false⟩ := by
              simp [splitStep, hesc, hws, hcur]
            rw [hstep]
            exact ⟨by simp, hwords, by simpa using hreplay⟩
          · have hstep : splitStep ⟨out, cur, [], false⟩ c =
                ⟨out ++ [cur], [], [], false⟩ := by
              simp [splitStep, hesc, hws, hcur]
            rw [hstep]
            refine ⟨by simp, ?_, by simp [replaySt]⟩
            intro w hw
            simp only [List.mem_append, List.mem_singleton] at hw
            rcases hw with hw | hw
            · exact hwords w hw
            · subst hw
              exact ⟨hreplay, by simpa using hcur⟩
        · have hstep : splitStep ⟨out, cur, [], false⟩ c =
              ⟨out, cur ++ [c], [], false⟩ := by
            simp [splitStep, hesc, hws]
          rw [hstep]
          refine ⟨by simp, hwords, ?_⟩
          rw [List.append_nil, replaySt_snoc, hreplay]
          simp [splitStep, hesc, hws]

/-- The scan invariant holds after scanning any input from the fresh
state. -/
theorem split_inv_fold (l : Str) :
    ∀ st, SInv st → SInv (l.foldl splitStep st) := by
  induction l with
  | nil => intro st h; simpa using h
  | cons c rest ih =>
      intro st h
      rw [List.foldl_cons]
      exact ih _ (split_inv_step st c h)

/-- Closed form of `splitFinish`: flush the in-progress word (content plus
pending escape buffer) when it is nonempty. -/
theorem splitFinish_eq (out : List Str) (cur buf : Str) (e : Bool) :
    splitFinish ⟨out, cur, buf, e⟩ =
      if cur ++ buf = [] then out else out ++ [cur ++ buf] := by
  unfold splitFinish
  simp only
  by_cases hb : buf = []
  · subst hb
    simp [List.isEmpty_iff]
  · have h1 : (cur ++ buf) ≠ [] := by simp [hb]
    simp [List.isEmpty_iff, hb, h1]

/-- Every word of a `split_text` result is nonempty and rescans to itself;
every non-final word moreover rescans to the closed state. -/
theorem split_text_words_replay (t : Str) :
    (∀ w ∈ split_text t, w ≠ [] ∧ ReplayCat w) ∧
    (∀ w ∈ (split_text t).dropLast, ReplayClosed w) := by
  have hinv : SInv (t.foldl splitStep ⟨[], [], [], false⟩) :=
    split_inv_fold t _ ⟨by simp, by simp, by simp [replaySt]⟩
  unfold split_text
  cases hst : t.foldl splitStep ⟨[], [], [], false⟩ with
  | mk out cur buf e =>
      rw [hst] at hinv
      obtain ⟨hflag, hwords, hreplay⟩ := hinv
      simp only at hflag hwords hreplay
      have hcat : ReplayCat (cur ++ buf) := by
        unfold ReplayCat
        rw [hreplay]
        exact ⟨rfl, rfl⟩
      rw [splitFinish_eq]
      by_cases hcb : cur ++ buf = []
      · rw [if_pos hcb]
        refine ⟨fun w hw => ⟨(hwords w hw).2, ((hwords w hw).1).cat⟩, ?_⟩
        intro w hw
        exact (hwords w ((List.dropLast_sublist out).subset hw)).1
      · rw [if_neg hcb]
        refine ⟨?_, ?_⟩
        · intro w hw
          simp only [List.mem_append, List.mem_singleton] at hw
          rcases hw with hw | hw
          · exact ⟨(hwords w hw).2, ((hwords w hw).1).cat⟩
          · subst hw
            exact ⟨hcb, hcat⟩
        · intro w hw
          rw [List.dropLast_concat] at hw
          exact (hwords w hw).1

/-- Splitting the single-space join of a word list recovers exactly that
word list, provided each word is nonempty and rescans to itself and each
non-final word rescans closed (as the words of any `split_text` result
do). -/
theorem split_join (ws : List Str)
    (h1 : ∀ w ∈ ws, w ≠ [] ∧ ReplayCat w)
    (h2 : ∀ w ∈ ws.dropLast, ReplayClosed w) :
    split_text (joinSep [' '] ws) = ws := by
  induction ws with
  | nil => rfl
  | cons w rest ih =>
      cases rest with
      | nil =>
          obtain ⟨hne, hcat⟩ := h1 w (by simp)
          obtain ⟨hw0, hw1⟩ := hcat
          show split_text w = [w]
          unfold split_text
          cases hr : replaySt w with
          | mk o cur buf e =>
              rw [hr] at hw0 hw1
              simp only at hw0 hw1
              subst hw0
              have : (w.foldl splitStep ⟨[], [], [], false⟩) =
                  (⟨[], cur, buf, e⟩ : SplitSt) := hr
              rw [this, splitFinish_eq, hw1, if_neg hne]
              rfl
      | cons v vs =>
          have hwclosed : ReplayClosed w := h2 w (by simp)
          have hjoin : joinSep [' '] (w :: v :: vs) =
              (w ++ [' ']) ++ joinSep [' '] (v :: vs) := by
            simp [joinSep, List.append_assoc]
          rw [hjoin]
          unfold split_text
          rw [List.foldl_append, List.foldl_append]
          have hw : (w.foldl splitStep ⟨[], [], [], false⟩) =
              (⟨[], w, [], false⟩ : SplitSt) := hwclosed
          rw [hw]
          have hne : w ≠ [] := (h1 w (by simp)).1
          have hsp : ([' '] : Str).foldl splitStep ⟨[], w, [], false⟩ =
              ⟨[w], [], [], false⟩ := by
            simp only [List.foldl_cons, List.foldl_nil]
            simp [splitStep, escChar, rustWhitespace, List.isEmpty_iff, hne]
          rw [hsp, splitFold_out]
          cases hrec : (joinSep [' '] (v :: vs)).foldl splitStep
              ⟨[], [], [], false⟩ with
          | mk o2 cur2 buf2 e2 =>
              simp only
              have hfin : splitFinish ⟨[w] ++ o2, cur2, buf2, e2⟩ =
                  [w] ++ splitFinish ⟨o2, cur2, buf2, e2⟩ :=
                splitFinish_out [w] o2 cur2 buf2 e2
              rw [hfin]
              have hrest : split_text (joinSep [' '] (v :: vs)) = v :: vs := by
                apply ih
                · intro u hu
                  exact h1 u (by simp [hu])
                · intro u hu
                  refine h2 u ?_
                  rw [List.dropLast_cons_of_ne_nil (by simp)]
                  simp [hu]
              unfold split_text at hrest
              rw [hrec] at hrest
              rw [hrest]
              rfl

/-- With empty prefixes, a wrap step on an empty line in progress starts
the line with the word (whether or not the word fits). -/
theorem wrapStep_empty_cur (width len : Nat) (isF : Bool) (L : List Str)
    (w : Str) :
    ∃ len2, wrapTextStep width [] [] ⟨L, [], len, isF⟩ w =
      ⟨L, w, len2, isF⟩ := by
  unfold wrapTextStep
  simp only [List.isEmpty_nil, if_true, List.nil_append]
  by_cases hfit : len + visible_length w + 0 ≤
      width - (if isF = true then visible_length [] else visible_length [])
  · exact ⟨len + visible_length w, by rw [if_pos hfit]⟩
  · exact ⟨visible_length w, by rw [if_neg hfit]⟩

/-- With empty prefixes, a wrap step on a nonempty line in progress either
appends the word after a single space, or flushes the line as-is and
starts a new line with the word. -/
theorem wrapStep_nonempty_cur (width len : Nat) (isF : Bool) (L : List Str)
    (cur w : Str) (hcur : cur ≠ []) :
    (∃ len2, wrapTextStep width [] [] ⟨L, cur, len, isF⟩ w =
      ⟨L, (cur ++ [' ']) ++ w, len2, isF⟩) ∨
    (∃ len2, wrapTextStep width [] [] ⟨L, cur, len, isF⟩ w =
      ⟨L ++ [cur], w, len2, false⟩) := by
  unfold wrapTextStep
  have hemp : cur.isEmpty = false := by simpa [List.isEmpty_iff] using hcur
  simp only [hemp, Bool.false_eq_true, if_false, ite_self, List.nil_append]
  by_cases hfit : len + visible_length w + 1 ≤ width - visible_length []
  · exact Or.inl ⟨len + 1 + visible_length w, by rw [if_pos hfit]⟩
  · exact Or.inr ⟨visible_length w, by rw [if_neg hfit]⟩

/-- Grouping invariant of the empty-prefix wrap loop: the produced lines
are single-space joins of consecutive nonempty groups of the words, and
the groups flatten back to the word sequence. -/
theorem wrapWords_groups (width : Nat) :
    ∀ (rem : List Str), (∀ w ∈ rem, w ≠ []) →
      ∀ (groups : List (List Str)) (g : List Str) (len : Nat) (isF : Bool),
        (∀ G ∈ groups, G ≠ []) → (∀ w ∈ g, w ≠ []) →
        ∃ groups2 : List (List Str),
          wrapTextFinish [] [] (rem.foldl (wrapTextStep width [] [])
              ⟨groups.map (joinSep [' ']), joinSep [' '] g, len, isF⟩) =
            groups2.map (joinSep [' ']) ∧
          groups2.flatten = groups.flatten ++ (g ++ rem) ∧
          (∀ G ∈ groups2, G ≠ []) := by
  intro rem
  induction rem with
  | nil =>
      intro _ groups g len isF hgroups hg
      simp only [List.foldl_nil]
      unfold wrapTextFinish
      by_cases hg0 : g = []
      · subst hg0
        refine ⟨groups, by simp [joinSep], by simp, hgroups⟩
      · have hne := joinSep_ne_nil [' '] g hg hg0
        rw [if_neg (by simpa [List.isEmpty_iff] using hne)]
        refine ⟨groups ++ [g], ?_, ?_, ?_⟩
        · simp [List.map_append, ite_self]
        · simp
        · intro G hG
          simp only [List.mem_append, List.mem_singleton] at hG
          rcases hG with hG | hG
          · exact hgroups G hG
          · subst hG; exact hg0
  | cons w rem2 ih =>
      intro hrem groups g len isF hgroups hg
      have hwne : w ≠ [] := hrem w (by simp)
      have hrem2 : ∀ v ∈ rem2, v ≠ [] := fun v hv => hrem v (by simp [hv])
      have hwone : ∀ v ∈ ([w] : List Str), v ≠ [] := by
        intro v hv
        simp only [List.mem_singleton] at hv
        subst hv
        exact hwne
      rw [List.foldl_cons]
      by_cases hg0 : g = []
      · subst hg0
        obtain ⟨len2, hstep⟩ := wrapStep_empty_cur width len isF
          (groups.map (joinSep [' '])) w
        have hstep2 : wrapTextStep width [] []
            ⟨groups.map (joinSep [' ']), joinSep [' '] ([] : List Str), len,
              isF⟩ w =
            ⟨groups.map (joinSep [' ']), joinSep [' '] [w], len2, isF⟩ :=
          hstep
        rw [hstep2]
        obtain ⟨groups2, h1, h2, h3⟩ := ih hrem2 groups [w] len2 isF hgroups
          hwone
        refine ⟨groups2, h1, ?_, h3⟩
        rw [h2]
        simp
      · have hne := joinSep_ne_nil [' '] g hg hg0
        rcases wrapStep_nonempty_cur width len isF
            (groups.map (joinSep [' '])) (joinSep [' '] g) w hne with
          ⟨len2, hstep⟩ | ⟨len2, hstep⟩
        · have happ : (joinSep [' '] g ++ [' ']) ++ w =
              joinSep [' '] (g ++ [w]) :=
            (joinSep_append_one [' '] w g hg0).symm
          rw [happ] at hstep
          rw [hstep]
          obtain ⟨groups2, h1, h2, h3⟩ := ih hrem2 groups (g ++ [w]) len2 isF
            hgroups (by
              intro v hv
              simp only [List.mem_append, List.mem_singleton] at hv
              rcases hv with hv | hv
              · exact hg v hv
              · subst hv; exact hwne)
          refine ⟨groups2, h1, ?_, h3⟩
          rw [h2]
          simp [List.append_assoc]
        · have hm : groups.map (joinSep [' ']) ++ [joinSep [' '] g] =
              (groups ++ [g]).map (joinSep [' ']) := by
            simp
          have hstep2 : wrapTextStep width [] []
              ⟨groups.map (joinSep [' ']), joinSep [' '] g, len, isF⟩ w =
              ⟨(groups ++ [g]).map (joinSep [' ']), joinSep [' '] [w], len2,
                false⟩ := by
            rw [hstep, hm]
            rfl
          rw [hstep2]
          obtain ⟨groups2, h1, h2, h3⟩ := ih hrem2 (groups ++ [g]) [w] len2
            false
            (by
              intro G hG
              simp only [List.mem_append, List.mem_singleton] at hG
              rcases hG with hG | hG
              · exact hgroups G hG
              · subst hG; exact hg0)
            hwone
          refine ⟨groups2, h1, ?_, h3⟩
          rw [h2]
          simp [List.append_assoc]

/-- With empty prefixes, joining the wrapped lines with single spaces
recovers the single-space join of the words. -/
theorem wrapWords_join (width : Nat) (ws : List Str)
    (hws : ∀ w ∈ ws, w ≠ []) (hne : ws ≠ []) :
    joinSpace (wrapWords ws width [] []) = joinSep [' '] ws := by
  unfold wrapWords
  rw [if_neg (by simpa [List.isEmpty_iff] using hne)]
  obtain ⟨groups2, h1, h2, h3⟩ :=
    wrapWords_groups width ws hws [] [] 0 true (by simp) (by simp)
  have hst : (⟨[], [], 0, true⟩ : WrapTextSt) =
      ⟨List.map (joinSep [' ']) [], joinSep [' '] [], 0, true⟩ := rfl
  rw [hst, h1]
  unfold joinSpace
  rw [joinSep_flatten [' '] groups2 h3, h2]
  simp

/-- C8 as amended: with both the first-line and the continuation prefix
empty, wrapping the single-space join of the lines produced by a previous
wrap, with the same width, reproduces exactly the same lines — for every
text and width. -/
theorem text_wrap_idem_empty_prefixes (text : Str) (width : Nat) :
    text_wrap (joinSpace (text_wrap text width [] [])) width [] [] =
      text_wrap text width [] [] := by
  by_cases h0 : (width == 0) = true
  · simp only [text_wrap, h0, if_true]
  · have hT : ∀ t : Str, text_wrap t width [] [] =
        wrapWords (split_text t) width [] [] := by
      intro t
      simp only [text_wrap, h0, Bool.false_eq_true, if_false]
    by_cases hws : split_text text = []
    · have hrhs : text_wrap text width [] [] = [] := by
        rw [hT, hws]
        simp [wrapWords]
      rw [hrhs]
      have hjoin : joinSpace ([] : List Str) = ([] : Str) := rfl
      rw [hjoin, hT]
      have hempty : split_text ([] : Str) = [] := rfl
      rw [hempty]
      simp [wrapWords]
    · have hwsne : ∀ w ∈ split_text text, w ≠ [] :=
        split_text_words_ne_nil text
      have hj : joinSpace (wrapWords (split_text text) width [] []) =
          joinSep [' '] (split_text text) :=
        wrapWords_join width (split_text text) hwsne hws
      obtain ⟨ha, hb⟩ := split_text_words_replay text
      have hsplit : split_text (joinSep [' '] (split_text text)) =
          split_text text :=
        split_join (split_text text) ha hb
      calc text_wrap (joinSpace (text_wrap text width [] [])) width [] []
          = text_wrap (joinSep [' '] (split_text text)) width [] [] := by
            rw [hT text, hj]
        _ = wrapWords (split_text (joinSep [' '] (split_text text)))
              width [] [] := hT _
        _ = wrapWords (split_text text) width [] [] := by rw [hsplit]
        _ = text_wrap text width [] [] := (hT text).symm

/-! ## Claim C7: ANSI-safety of the table cell wrap -/

/-- Counterexample to C7 as stated: wrapping `"\x1b[1mabc"` at width 2
splits into two chunks, and the final chunk does not end with a full
reset — the reset is appended only at break points, not at the end of
every chunk. -/
theorem wrap_last_chunk_unreset :
    wrap (escChar :: "[1mabc".data) 2 =
      [escChar :: "[1mab".data ++ ansiReset, escChar :: "[1mc".data] ∧
    (List.IsSuffix ansiReset (escChar :: "[1mc".data) → False) := by
  exact ⟨by decide, by decide⟩

/-- The style scanner distributes over concatenation. -/
theorem styleScan_append (a b : Str) :
    styleScan (a ++ b) = b.foldl styleStep (styleScan a) := by
  unfold styleScan
  rw [List.foldl_append]

/-- Inside a pending escape, scanning characters other than `m` only
extends the buffer. -/
theorem styleStep_fold_mid (mid : Str) :
    ∀ (buf : Str) (sty : Option Str), 'm' ∉ mid → buf ≠ [] →
      mid.foldl styleStep (buf, sty) = (buf ++ mid, sty) := by
  induction mid with
  | nil => intro buf sty _ _; simp
  | cons c rest ih =>
      intro buf sty hm hbuf
      have hcm : (c == 'm') = false := by
        simp only [beq_eq_false_iff_ne, ne_eq]
        intro hc
        exact hm (by simp [hc])
      have hbe : (!buf.isEmpty) = true := by
        simpa [List.isEmpty_iff] using hbuf
      rw [List.foldl_cons]
      have hstep : styleStep (buf, sty) c = (buf ++ [c], sty) := by
        unfold styleStep
        simp [hbe, hcm]
      rw [hstep, ih (buf ++ [c]) sty (fun hmm => hm (by simp [hmm]))
        (by simp)]
      simp

/-- Scanning one complete escape sequence (`ESC`, an interior free of `m`,
a final `m`) from a closed state installs it as the active style — or
clears the style when it is the full reset. -/
theorem styleScan_complete_esc (t : Str) (hm : 'm' ∉ (escChar :: t))
    (sty : Option Str) :
    ((escChar :: t) ++ ['m']).foldl styleStep ([], sty) =
      ([], if ((escChar :: t) ++ ['m']) == ansiReset then none
           else some ((escChar :: t) ++ ['m'])) := by
  have hstep1 : styleStep ([], sty) escChar = ([escChar], sty) := by
    unfold styleStep
    simp [show (escChar == 'm') = false from by decide]
  rw [List.cons_append, List.foldl_cons, hstep1]
  have hmid : 'm' ∉ t := fun hmm => hm (by simp [hmm])
  rw [List.foldl_append, styleStep_fold_mid t [escChar] sty hmid (by simp)]
  have hstepm : styleStep ([escChar] ++ t, sty) 'm' =
      ([], if (([escChar] ++ t) ++ ['m']) == ansiReset then none
           else some (([escChar] ++ t) ++ ['m'])) := by
    unfold styleStep
    simp [List.isEmpty_iff]
  rw [List.foldl_cons, List.foldl_nil, hstepm]
  simp

/-- Scanning the full reset clears the style. -/
theorem styleStep_fold_reset (sty : Option Str) :
    ansiReset.foldl styleStep ([], sty) = ([], none) := by
  have h := styleScan_complete_esc ['[', '0'] (by decide) sty
  simp only [show ((escChar :: ['[', '0']) ++ ['m']) = ansiReset from rfl,
    beq_self_eq_true, if_true] at h
  exact h

/-- Scanning a plain character (no pending escape, not the escape
character) leaves a closed scanner state unchanged. -/
theorem styleStep_plain (sty : Option Str) (c : Char)
    (hc : (c == escChar) = false) : styleStep ([], sty) c = ([], sty) := by
  unfold styleStep
  simp [hc]

/-- Relation between consecutive wrapped chunks: the earlier chunk ends
with a full reset, and the later chunk re-opens (as a prefix) the style
that was active at the end of the earlier chunk (its reset stripped). -/
def chunkRel (a b : Str) : Prop :=
  List.IsSuffix ansiReset a ∧
  List.IsPrefix ((activeStyle (stripReset a)).getD []) b

/-- Shape of the pending escape buffer of the cell wrap: no `m` yet, and
it starts with the escape character when nonempty. -/
def EscBufInv (esc : Str) : Prop :=
  'm' ∉ esc ∧ (esc ≠ [] → ∃ t, esc = escChar :: t)

/-- The recorded active style rescans to itself. -/
def StyleInv (sty : Option Str) : Prop :=
  ∀ s, sty = some s → styleScan s = ([], some s)

/-- Loop invariant of the table cell wrap. -/
def CellInv (st : CellWrapSt) : Prop :=
  (∀ l ∈ st.lines, List.IsSuffix ansiReset l ∧ escBalanced l = true) ∧
  List.Chain' chunkRel st.lines ∧
  (∀ a, st.lines.getLast? = some a → chunkRel a st.line) ∧
  styleScan st.line = ([], st.style) ∧
  EscBufInv st.esc ∧
  StyleInv st.style

/-- `chunkRel` is stable under extending the later chunk on the right. -/
theorem chunkRel.extend {a b : Str} (h : chunkRel a b) (x : Str) :
    chunkRel a (b ++ x) :=
  ⟨h.1, h.2.trans (List.prefix_append b x)⟩

/-- Stripping the appended reset recovers the chunk body. -/
theorem stripReset_append (l : Str) : stripReset (l ++ ansiReset) = l := by
  unfold stripReset
  have hlen : (l ++ ansiReset).length - 4 = l.length := by
    simp [ansiReset]
  rw [hlen, List.take_left]

/-- The cell wrap step preserves the loop invariant. -/
theorem cellInv_step (width : Nat) (st : CellWrapSt) (c : Char)
    (h : CellInv st) : CellInv (cellWrapStep width st c) := by
  obtain ⟨hlines, hchain, hlast, hscan, ⟨hescm, heschd⟩, hsty⟩ := h
  unfold cellWrapStep
  by_cases hguard : ((!st.esc.isEmpty) || c == escChar) = true
  · rw [if_pos hguard]
    by_cases hm : (c == 'm') = true
    · rw [if_pos hm]
      have hcm : c = 'm' := by simpa using hm
      have hesc : st.esc ≠ [] := by
        intro he
        rw [he] at hguard
        subst hcm
        have hcesc : ('m' == escChar) = true := by simpa using hguard
        exact absurd hcesc (by decide)
      obtain ⟨t, ht⟩ := heschd hesc
      have hmt : 'm' ∉ (escChar :: t) := by
        rw [← ht]
        exact hescm
      have hescan : ∀ sty : Option Str,
          (st.esc ++ [c]).foldl styleStep ([], sty) =
            ([], if (st.esc ++ [c]) == ansiReset then none
                 else some (st.esc ++ [c])) := by
        intro sty
        subst hcm
        rw [ht]
        exact styleScan_complete_esc t hmt sty
      refine ⟨hlines, hchain, ?_, ?_, ⟨by simp, by simp⟩, ?_⟩
      · intro a ha
        simp only at ha
        exact (hlast a ha).extend _
      · simp only
        rw [styleScan_append, hscan, hescan]
      · intro s hs
        simp only at hs
        by_cases hre : ((st.esc ++ [c]) == ansiReset) = true
        · rw [if_pos hre] at hs
          exact absurd hs (by simp)
        · rw [if_neg hre] at hs
          simp only [Option.some.injEq] at hs
          subst hs
          unfold styleScan
          rw [hescan none, if_neg hre]
    · rw [if_neg hm]
      have hcm : c ≠ 'm' := by simpa using hm
      refine ⟨hlines, hchain, hlast, hscan, ⟨?_, ?_⟩, hsty⟩
      · simp only [List.mem_append, List.mem_singleton]
        rintro (hin | hin)
        · exact hescm hin
        · exact hcm hin.symm
      · intro _
        by_cases he : st.esc = []
        · rw [he] at hguard ⊢
          have hce : c = escChar := by simpa using hguard
          exact ⟨[], by subst hce; simp⟩
        · obtain ⟨t, ht⟩ := heschd he
          exact ⟨t ++ [c], by rw [ht]; rfl⟩
  · rw [if_neg hguard]
    have hesc : st.esc = [] := by
      by_contra he
      have : (!st.esc.isEmpty) = true := by simpa [List.isEmpty_iff] using he
      simp [this] at hguard
    have hce : (c == escChar) = false := by
      by_contra hc
      simp only [Bool.not_eq_false] at hc
      simp [hc] at hguard
    have hplain : styleScan ((st.style.getD []) ++ [c]) = ([], st.style) := by
      cases hstyv : st.style with
      | none =>
          unfold styleScan
          simp only [Option.getD_none, List.nil_append, List.foldl_cons,
            List.foldl_nil]
          exact styleStep_plain none c hce
      | some s =>
          rw [styleScan_append]
          have hss : styleScan s = ([], some s) := hsty s hstyv
          simp only [Option.getD_some]
          rw [hss, List.foldl_cons, List.foldl_nil]
          exact styleStep_plain (some s) c hce
    by_cases hbreak : (st.w + charWidth c > width && decide (st.w > 0)) = true
    · rw [if_pos hbreak]
      have hbal : escBalanced (st.line ++ ansiReset) = true := by
        unfold escBalanced
        rw [styleScan_append, hscan, styleStep_fold_reset]
        rfl
      refine ⟨?_, ?_, ?_, ?_, ⟨by rw [← hesc]; exact hescm,
        by rw [hesc] at heschd ⊢; exact heschd⟩, hsty⟩
      · intro l hl
        simp only [List.mem_append, List.mem_singleton] at hl
        rcases hl with hl | hl
        · exact hlines l hl
        · subst hl
          exact ⟨⟨st.line, rfl⟩, hbal⟩
      · refine List.Chain'.append hchain (List.chain'_singleton _) ?_
        intro a ha y hy
        simp only [List.head?_cons, Option.mem_def, Option.some.injEq] at hy
        subst hy
        exact (hlast a ha).extend _
      · intro a ha
        simp only [List.getLast?_concat, Option.some.injEq] at ha
        subst ha
        refine ⟨⟨st.line, rfl⟩, ?_⟩
        rw [stripReset_append]
        unfold activeStyle
        rw [hscan]
        exact List.prefix_append _ _
      · simp only
        exact hplain
    · rw [if_neg hbreak]
      refine ⟨hlines, hchain, ?_, ?_, ⟨by rw [← hesc]; exact hescm,
        by rw [hesc] at heschd ⊢; exact heschd⟩, hsty⟩
      · intro a ha
        simp only at ha
        exact (hlast a ha).extend _
      · simp only
        rw [styleScan_append, hscan, List.foldl_cons, List.foldl_nil]
        exact styleStep_plain st.style c hce

/-- The invariant holds after folding any input. -/
theorem cellInv_fold (width : Nat) (l : Str) :
    ∀ st, CellInv st → CellInv (l.foldl (cellWrapStep width) st) := by
  induction l with
  | nil => intro st h; simpa using h
  | cons c rest ih =>
      intro st h
      rw [List.foldl_cons]
      exact ih _ (cellInv_step width st c h)

/-- A chunk chain gives, at every adjacent pair, the reset-at-end and
style-re-opened-at-start properties. -/
theorem chunks_props (chunks : List Str)
    (hchain : List.Chain' chunkRel chunks) :
    ∀ i (hi : i + 1 < chunks.length),
      List.IsSuffix ansiReset (chunks.get ⟨i, Nat.lt_of_succ_lt hi⟩) ∧
      List.IsPrefix
        ((activeStyle (stripReset
            (chunks.get ⟨i, Nat.lt_of_succ_lt hi⟩))).getD [])
        (chunks.get ⟨i + 1, hi⟩) := by
  intro i hi
  have hrel := List.chain'_iff_get.mp hchain i (by omega)
  exact ⟨hrel.1, hrel.2⟩

/-- C7 as amended: for every styled cell string and positive column width,
the table cell wrap never ends a chunk inside an escape sequence (whenever
it splits at all, every chunk is escape-balanced), every chunk that is
followed by another chunk ends with a full reset, and every continuation
chunk re-opens, as its prefix, the style active at the end of the previous
chunk (the previous chunk's reset stripped). -/
theorem wrap_cell_ansi_safe (text : Str) (width : Nat) (h : 0 < width) :
    (wrap text width = [text] ∨
      ∀ ch ∈ wrap text width, escBalanced ch = true) ∧
    ∀ i (hi : i + 1 < (wrap text width).length),
      List.IsSuffix ansiReset
        ((wrap text width).get ⟨i, Nat.lt_of_succ_lt hi⟩) ∧
      List.IsPrefix
        ((activeStyle (stripReset
            ((wrap text width).get ⟨i, Nat.lt_of_succ_lt hi⟩))).getD [])
        ((wrap text width).get ⟨i + 1, hi⟩) := by
  have hinit : CellInv ⟨[], [], 0, [], none⟩ := by
    refine ⟨by simp, List.chain'_nil, ?_, rfl, ⟨by simp, by simp⟩, ?_⟩
    · intro a ha
      simp at ha
    · intro s hs
      exact absurd hs (by simp)
  obtain ⟨hlines, hchain, hlast, hscan, hescinv, hstyinv⟩ :=
    cellInv_fold width text ⟨[], [], 0, [], none⟩ hinit
  have hbal : ∀ ch ∈ cellWrapFinish
      (text.foldl (cellWrapStep width) ⟨[], [], 0, [], none⟩),
      escBalanced ch = true := by
    intro ch hch
    unfold cellWrapFinish at hch
    split_ifs at hch
    · exact (hlines ch hch).2
    · rcases List.mem_append.mp hch with hm | hm
      · exact (hlines ch hm).2
      · rw [List.mem_singleton] at hm
        subst hm
        unfold escBalanced
        rw [hscan]
        rfl
  have hch2 : List.Chain' chunkRel (cellWrapFinish
      (text.foldl (cellWrapStep width) ⟨[], [], 0, [], none⟩)) := by
    unfold cellWrapFinish
    split_ifs
    · exact hchain
    · refine hchain.append (List.chain'_singleton _) ?_
      intro a ha y hy
      simp only [List.head?_cons, Option.mem_def, Option.some.injEq] at hy
      subst hy
      exact hlast a (Option.mem_def.mp ha)
  unfold wrap
  by_cases hfast : (width == 0 || decide (visible_length text ≤ width)) = true
  · rw [if_pos hfast]
    refine ⟨Or.inl rfl, ?_⟩
    intro i hi
    simp only [List.length_singleton] at hi
    omega
  · rw [if_neg hfast]
    simp only
    by_cases hempty : (cellWrapFinish
        (text.foldl (cellWrapStep width)
          ⟨[], [], 0, [], none⟩)).isEmpty = true
    · rw [if_pos hempty]
      refine ⟨Or.inr ?_, ?_⟩
      · intro ch hch
        simp only [List.mem_singleton] at hch
        subst hch
        rfl
      · intro i hi
        simp only [List.length_singleton] at hi
        omega
    · rw [if_neg hempty]
      exact ⟨Or.inr hbal, chunks_props _ hch2⟩

/-- Concrete witness for C7: the two-chunk wrap of `"\x1b[1mabc"` at
width 2. -/
theorem wrap_cell_ansi_safe_witness :
    0 < 2 ∧
    ((wrap (escChar :: "[1mabc".data) 2 = [escChar :: "[1mabc".data] ∨
        ∀ ch ∈ wrap (escChar :: "[1mabc".data) 2, escBalanced ch = true) ∧
      ∀ i (hi : i + 1 < (wrap (escChar :: "[1mabc".data) 2).length),
        List.IsSuffix ansiReset
          ((wrap (escChar :: "[1mabc".data) 2).get
            ⟨i, Nat.lt_of_succ_lt hi⟩) ∧
        List.IsPrefix
          ((activeStyle (stripReset
              ((wrap (escChar :: "[1mabc".data) 2).get
                ⟨i, Nat.lt_of_succ_lt hi⟩))).getD [])
          ((wrap (escChar :: "[1mabc".data) 2).get ⟨i + 1, hi⟩)) :=
  ⟨by decide, wrap_cell_ansi_safe (escChar :: "[1mabc".data) 2 (by decide)⟩
